import Mathlib

/-!
Verification of the qsearch gate algebra (`src/qsearch/gates.py`).

The development shallowly embeds the parts of `gates.py` that the claims
C1..C10 are about:

* `ProductGate` (sequential composition): `matrix`, `mat_jac`,
  `validate_structure`, `__init__` flattening, `inserting`.
* `KroneckerGate` (tensor composition): `matrix`, `mat_jac`, `__init__`.
* `NonadjacentCNOTGate.validate_structure`.
* the canonical identity machinery (`__repr__`, `__eq__`, `__hash__` with its
  md5 digest) and `CPIPhaseGate`.

Numpy `complex128` matrices are idealised as matrices over `ℂ`.  Python code
that can raise is embedded with `Option`/`Except`; a Python function that
falls off its end returns `none` (Python `None`).  Children of a composite
gate are embedded as records providing the fields of the `Gate` interface
that the composite actually calls (`num_inputs`, `matrix`, `mat_jac`,
`qudits`, `validate_structure`).
-/

noncomputable section

namespace QSearch

/-! ## Python list slicing

`l[:d]` and `l[d:]` for a possibly negative `d`, as used by
`ProductGate.inserting`.  For `d < 0` Python counts from the end, clamping
at 0. -/

/-- Python index resolution for a slice bound `d` on a list of length `L`:
negative indices count from the end and clamp at `0`. -/
def pyBound (L : ℕ) (d : ℤ) : ℕ :=
  if d < 0 then ((L : ℤ) + d).toNat else min d.toNat L

/-- Python `l[:d]`. -/
def pySliceTo (l : List α) (d : ℤ) : List α := l.take (pyBound l.length d)

/-- Python `l[d:]`. -/
def pySliceFrom (l : List α) (d : ℤ) : List α := l.drop (pyBound l.length d)

theorem pySliceTo_append_pySliceFrom (l : List α) (d : ℤ) :
    pySliceTo l d ++ pySliceFrom l d = l := List.take_append_drop _ l

/-! ## Gate trees for structural claims (C8, C9)

Only the tree shape matters for the flattening / inserting claims, so gates
are embedded as a tree whose leaves carry an identifying tag. -/

/-- Structural skeleton of a gate object: a primitive leaf, a
`KroneckerGate` node or a `ProductGate` node, each holding the stored
`_subgates` sequence. -/
inductive GTree : Type where
  | leaf (tag : ℕ) : GTree
  | kron (subgates : List GTree) : GTree
  | prod (subgates : List GTree) : GTree

namespace GTree

/-- Python `type(subgate) is ProductGate`. -/
def isProd : GTree → Bool
  | .prod _ => true
  | _ => false

/-- The stored `_subgates` list of a composite node (a leaf stores none). -/
def subgates : GTree → List GTree
  | .leaf _ => []
  | .kron cs => cs
  | .prod cs => cs

/-- `ProductGate.__init__`: each argument that is itself (exactly) a
`ProductGate` contributes its `_subgates`; any other gate is appended as
is. -/
def mkProduct (args : List GTree) : GTree :=
  .prod (args.flatMap fun g => if g.isProd then g.subgates else [g])

/-- `KroneckerGate.__init__`: the argument tuple is stored unchanged. -/
def mkKronecker (args : List GTree) : GTree := .kron args

/-- `ProductGate.appending`: `ProductGate(*self._subgates, *gates)`. -/
def appending (p : GTree) (gates : List GTree) : GTree :=
  mkProduct (p.subgates ++ gates)

/-- `ProductGate.inserting`:
`ProductGate(*self._subgates[:depth], *gates, *self._subgates[depth:])`. -/
def inserting (p : GTree) (gates : List GTree) (depth : ℤ := -1) : GTree :=
  mkProduct (pySliceTo p.subgates depth ++ gates ++ pySliceFrom p.subgates depth)

mutual

/-- No `ProductGate` node directly contains a `ProductGate` child (and the
same holds in every subtree). -/
def flatInv : GTree → Bool
  | .leaf _ => true
  | .kron cs => flatInvAll cs
  | .prod cs => flatInvProd cs

/-- `flatInv` for every member of a list. -/
def flatInvAll : List GTree → Bool
  | [] => true
  | c :: cs => flatInv c && flatInvAll cs

/-- Every member of a `ProductGate`'s child list is not itself a
`ProductGate` and satisfies `flatInv`. -/
def flatInvProd : List GTree → Bool
  | [] => true
  | c :: cs => (!c.isProd) && flatInv c && flatInvProd cs

end

theorem flatInvAll_iff (cs : List GTree) :
    flatInvAll cs = true ↔ ∀ c ∈ cs, flatInv c = true := by
  induction cs with
  | nil => simp [flatInvAll]
  | cons c cs ih => simp [flatInvAll, ih]

theorem flatInvProd_iff (cs : List GTree) :
    flatInvProd cs = true ↔ ∀ c ∈ cs, c.isProd = false ∧ flatInv c = true := by
  induction cs with
  | nil => simp [flatInvProd]
  | cons c cs ih => simp [flatInvProd, ih, Bool.not_eq_true']

theorem flatInvProd_append (cs ds : List GTree) :
    flatInvProd (cs ++ ds) = (flatInvProd cs && flatInvProd ds) := by
  induction cs with
  | nil => simp [flatInvProd]
  | cons c cs ih => simp [flatInvProd, ih, Bool.and_assoc]

/-- Flattening one argument: the piece a single constructor argument
contributes to the stored `_subgates` of a new `ProductGate`. -/
theorem flatInvProd_expand (g : GTree) (hg : flatInv g = true) :
    flatInvProd (if g.isProd then g.subgates else [g]) = true := by
  cases g with
  | leaf t => simp [isProd, flatInvProd, flatInv]
  | kron cs => simpa [isProd, flatInvProd] using hg
  | prod cs => simpa [isProd, subgates, flatInv] using hg

theorem flatInv_mkProduct (args : List GTree)
    (h : ∀ g ∈ args, flatInv g = true) : flatInv (mkProduct args) = true := by
  show flatInvProd _ = true
  induction args with
  | nil => simp [flatInvProd]
  | cons a args ih =>
      have ha := flatInvProd_expand a (h a (by simp))
      have hrest := ih (fun g hg => h g (by simp [hg]))
      simpa [flatInvProd_append, ha] using hrest

theorem flatInv_subgates (p : GTree) (hp : flatInv p = true) :
    ∀ c ∈ p.subgates, flatInv c = true := by
  intro c hc
  cases p with
  | leaf t => simp [subgates] at hc
  | kron cs =>
      have := (flatInvAll_iff cs).1 (by simpa [flatInv] using hp)
      exact this c (by simpa [subgates] using hc)
  | prod cs =>
      have := (flatInvProd_iff cs).1 (by simpa [flatInv] using hp)
      exact (this c (by simpa [subgates] using hc)).2

end GTree

/-! ## validate_structure (C6, C7)

The module `gates.py` never imports `warn`, so every call `warn(...)`
raises `NameError` at run time.  Python functions that raise are embedded
in `Except String`; the payload names the exception class.  A Python
function that reaches the end of its body without `return` returns `None`,
embedded as `none : Option Bool`. -/

/-- `NonadjacentCNOTGate.validate_structure`, for a gate constructed as
`NonadjacentCNOTGate(qudits, control, target)` (Python ints are `ℤ`).
The source checks `control >= qudits or target > qudits`, then
`control == target`; on either hit it calls the unbound name `warn`,
which raises `NameError`. -/
def nacnotValidate (qudits control target : ℤ) : Except String Bool :=
  if control ≥ qudits ∨ target > qudits then .error "NameError"
  else if control = target then .error "NameError"
  else .ok true

/-- A child of a `ProductGate`, as seen by `ProductGate.validate_structure`:
its `qudits` and `num_inputs` attributes and the result of its own
`validate_structure()` call. -/
structure VChild where
  qudits : ℤ
  num_inputs : ℤ
  validate : Except String Bool

/-- The loop body of `ProductGate.validate_structure` over the children:
threads the accumulated `valid` flag and `num_inputs` sum; the first
qudit-count mismatch calls the unbound `warn`, raising `NameError`; a
child's own `validate_structure()` may itself raise. -/
def pgValidateLoop (selfQudits : ℤ) :
    List VChild → Bool → ℤ → Except String (Bool × ℤ)
  | [], valid, num => .ok (valid, num)
  | c :: cs, valid, num =>
      if c.qudits ≠ selfQudits then .error "NameError"
      else match c.validate with
        | .error e => .error e
        | .ok b => pgValidateLoop selfQudits cs (valid && b) (num + c.num_inputs)

/-- `ProductGate.validate_structure`.  After the loop, a `num_inputs`
mismatch calls the unbound `warn` (`NameError`); otherwise the function
executes `valid = True` and falls off the end of its body, returning
Python `None` (there is no `return` statement). -/
def pgValidate (selfQudits selfNumInputs : ℤ) (children : List VChild) :
    Except String (Option Bool) :=
  match pgValidateLoop selfQudits children true 0 with
  | .error e => .error e
  | .ok (_valid, num) =>
      if num ≠ selfNumInputs then .error "NameError"
      else .ok none

/-- The `VChild` view of a `CNOTGate()` (2 qubits, 0 parameters, default
`Gate.validate_structure` returning `True`). -/
def cnotChild : VChild := ⟨2, 0, .ok true⟩

/-! ## Claim theorems C6, C7, C8, C9 -/

/-- C6: the claim says `ProductGate.validate_structure()` returns a boolean,
`True` when every check passes.  The code instead falls off the end of the
function (the accumulated `valid` flag is clobbered by a trailing
`valid = True` and never returned), so a fully consistent
`ProductGate(CNOTGate(), CNOTGate())` yields Python `None`; and on a
qudit-count mismatch the unbound name `warn` raises `NameError` instead of
producing the promised warning plus `False`. -/
theorem pgValidate_returns_none :
    pgValidate 2 0 [cnotChild, cnotChild] = .ok none ∧
      pgValidate 3 0 [cnotChild] = .error "NameError" := by
  constructor <;> rfl

/-- C7: the claim says `NonadjacentCNOTGate.validate_structure` returns
`False` (with a warning, no exception) exactly when control or target is
outside `[0, qudits)` or control equals target.  The code compares the
target with `>` instead of `>=`, so `NonadjacentCNOTGate(3, 0, 3)` — whose
target is out of range — validates as `True`; and when a check does fire
(e.g. `(3, 5, 1)`), the unbound name `warn` raises `NameError` rather than
warning and returning `False`.  Negative indices (e.g. control `-1`) are
also accepted. -/
theorem nacnotValidate_boundary :
    nacnotValidate 3 0 3 = .ok true ∧
      nacnotValidate 3 5 1 = .error "NameError" ∧
      nacnotValidate 3 (-1) 1 = .ok true := by
  refine ⟨?_, ?_, ?_⟩ <;> rfl

/-- C8: constructing a `ProductGate` absorbs the `_subgates` of any
argument that is itself a `ProductGate` into one flat sequence, so a
`ProductGate` never directly contains a `ProductGate` child — an invariant
preserved by `__init__`, `appending` and `inserting` — while
`KroneckerGate.__init__` stores its arguments unchanged, keeping nested
`KroneckerGate` children. -/
theorem productGate_flattening (args : List GTree)
    (h : ∀ g ∈ args, GTree.flatInv g = true)
    (p : GTree) (hp : GTree.flatInv p = true)
    (gates : List GTree) (hgates : ∀ g ∈ gates, GTree.flatInv g = true)
    (depth : ℤ) :
    (GTree.mkProduct args).subgates
        = args.flatMap (fun g => if g.isProd then g.subgates else [g]) ∧
      GTree.flatInv (GTree.mkProduct args) = true ∧
      GTree.flatInv (p.appending gates) = true ∧
      GTree.flatInv (p.inserting gates depth) = true ∧
      (GTree.mkKronecker args).subgates = args := by
  refine ⟨rfl, GTree.flatInv_mkProduct args h, ?_, ?_, rfl⟩
  · refine GTree.flatInv_mkProduct _ ?_
    intro g hg
    rcases List.mem_append.1 hg with hg | hg
    · exact GTree.flatInv_subgates p hp g hg
    · exact hgates g hg
  · refine GTree.flatInv_mkProduct _ ?_
    intro g hg
    rcases List.mem_append.1 hg with hg | hg
    · rcases List.mem_append.1 hg with hg | hg
      · exact GTree.flatInv_subgates p hp g (List.mem_of_mem_take hg)
      · exact hgates g hg
    · exact GTree.flatInv_subgates p hp g (List.mem_of_mem_drop hg)

/-- Witness for C8: a concrete instantiation with a `ProductGate` argument
(which gets absorbed), a `ProductGate` receiver and a gate list. -/
theorem productGate_flattening_witness :
    ((∀ g ∈ [GTree.mkProduct [GTree.leaf 0], GTree.leaf 1],
        GTree.flatInv g = true) ∧
      GTree.flatInv (GTree.mkProduct [GTree.leaf 2]) = true ∧
      (∀ g ∈ [GTree.leaf 3], GTree.flatInv g = true)) ∧
    ((GTree.mkProduct [GTree.mkProduct [GTree.leaf 0], GTree.leaf 1]).subgates
        = [GTree.mkProduct [GTree.leaf 0], GTree.leaf 1].flatMap
            (fun g => if g.isProd then g.subgates else [g]) ∧
      GTree.flatInv
          (GTree.mkProduct [GTree.mkProduct [GTree.leaf 0], GTree.leaf 1])
        = true ∧
      GTree.flatInv
          ((GTree.mkProduct [GTree.leaf 2]).appending [GTree.leaf 3]) = true ∧
      GTree.flatInv
          ((GTree.mkProduct [GTree.leaf 2]).inserting [GTree.leaf 3] (-1))
        = true ∧
      (GTree.mkKronecker
          [GTree.mkProduct [GTree.leaf 0], GTree.leaf 1]).subgates
        = [GTree.mkProduct [GTree.leaf 0], GTree.leaf 1]) := by
  have h : ∀ g ∈ [GTree.mkProduct [GTree.leaf 0], GTree.leaf 1],
      GTree.flatInv g = true := by
    intro g hg
    simp only [List.mem_cons, List.not_mem_nil, or_false] at hg
    rcases hg with rfl | rfl <;> rfl
  have hp : GTree.flatInv (GTree.mkProduct [GTree.leaf 2]) = true := rfl
  have hgates : ∀ g ∈ [GTree.leaf 3], GTree.flatInv g = true := by
    intro g hg
    simp only [List.mem_cons, List.not_mem_nil, or_false] at hg
    subst hg; rfl
  exact ⟨⟨h, hp, hgates⟩,
    productGate_flattening _ h (GTree.mkProduct [GTree.leaf 2]) hp
      [GTree.leaf 3] hgates (-1)⟩

/-- C9: the docstring of `ProductGate.inserting` (and the claim) promise
that the default `depth=-1` prepends the new gates before all existing
children.  Python slicing instead resolves `[:-1]` / `[-1:]` to "all but
the last" / "the last", so for a two-child product the new gate lands
immediately before the last child, not at the front. -/
theorem inserting_default_not_prepend :
    (GTree.prod [GTree.leaf 0, GTree.leaf 1]).inserting [GTree.leaf 2]
        = GTree.prod [GTree.leaf 0, GTree.leaf 2, GTree.leaf 1] ∧
      (GTree.prod [GTree.leaf 0, GTree.leaf 1]).inserting [GTree.leaf 2]
        ≠ GTree.prod [GTree.leaf 2, GTree.leaf 0, GTree.leaf 1] := by
  refine ⟨rfl, ?_⟩
  intro hcontra
  rw [show (GTree.prod [GTree.leaf 0, GTree.leaf 1]).inserting [GTree.leaf 2]
      = GTree.prod [GTree.leaf 0, GTree.leaf 2, GTree.leaf 1] from rfl] at hcontra
  simp at hcontra

/-! ## Sequential composition: `ProductGate` (C1, C2)

All children of a `ProductGate` act on the same number of qudits, so their
matrices share one size `n` (`d**qudits`); numpy `complex128` matrices are
idealised as `Matrix (Fin n) (Fin n) ℂ`.  A child is embedded by the parts
of the `Gate` interface that `ProductGate` calls: `num_inputs`,
`matrix(v)` and `mat_jac(v)`. -/

/-- Square complex matrices of size `n`. -/
abbrev CMat (n : ℕ) := Matrix (Fin n) (Fin n) ℂ

/-- A child gate as used by `ProductGate`: its `num_inputs` attribute, its
`matrix` method and its `mat_jac` method (returning the matrix together
with one jacobian per parameter). -/
structure PChild (n : ℕ) where
  num_inputs : ℕ
  mat : List ℝ → CMat n
  mat_jac : List ℝ → CMat n × List (CMat n)

namespace ProductGate

variable {n : ℕ}

/-- The loop `for gate in self._subgates: U = gate.matrix(v[index:index+gate.num_inputs]); index += gate.num_inputs`,
collecting the children's matrices (`v[a:b]` is `(v.drop a).take (b-a)`). -/
def childMats : List (PChild n) → List ℝ → ℕ → List (CMat n)
  | [], _, _ => []
  | g :: rest, v, index =>
      g.mat ((v.drop index).take g.num_inputs)
        :: childMats rest v (index + g.num_inputs)

/-- The analogous loop of `mat_jac`, collecting `(U, Js)` pairs. -/
def childMatJacs : List (PChild n) → List ℝ → ℕ →
    List (CMat n × List (CMat n))
  | [], _, _ => []
  | g :: rest, v, index =>
      g.mat_jac ((v.drop index).take g.num_inputs)
        :: childMatJacs rest v (index + g.num_inputs)

/-- `U = matrices[0]` followed by `for matrix in matrices[1:]: U = np.matmul(matrix, U)`
(the numpy source juggles two scratch buffers for this fold; numpy's
copy-if-overlap semantics for `matmul` make that equal to the plain fold).
An empty list raises `IndexError`, embedded as `none`. -/
def foldMul : List (CMat n) → Option (CMat n)
  | [] => none
  | m :: rest => some (rest.foldl (fun U M => M * U) m)

/-- `ProductGate.matrix(v)`: fewer than two children short-circuits to
`self._subgates[0].matrix(v)` (raising `IndexError`, i.e. `none`, when
there are no children at all). -/
def matrix (gs : List (PChild n)) (v : List ℝ) : Option (CMat n) :=
  match gs with
  | [] => none
  | [g] => some (g.mat v)
  | _ => foldMul (childMats gs v 0)

/-- The second loop of `ProductGate.mat_jac`: at each child, first strip
the child's factor from the "after" product `A` by right-multiplying its
adjoint, then append `A · (J · B)` for each jacobian `J` of the child, and
finally fold the child's matrix into the "before" product `B`. -/
def jacLoop : CMat n → CMat n → List (CMat n) →
    List (CMat n × List (CMat n)) → CMat n × List (CMat n)
  | _, B, jacs, [] => (B, jacs)
  | A, B, jacs, (U, Js) :: rest =>
      jacLoop (A * U.conjTranspose) (U * B)
        (jacs ++ Js.map fun J => (A * U.conjTranspose) * (J * B)) rest

/-- `ProductGate.mat_jac(v)`: fewer than two children short-circuits to
`self._subgates[0].mat_jac(v)`; otherwise the "after" product is seeded
with the full product of all children and the two-pass scan of `jacLoop`
runs with `B` initialised to the identity. -/
def mat_jac (gs : List (PChild n)) (v : List ℝ) :
    Option (CMat n × List (CMat n)) :=
  match gs with
  | [] => none
  | [g] => some (g.mat_jac v)
  | _ =>
      let MJs := childMatJacs gs v 0
      (foldMul (MJs.map Prod.fst)).map fun A0 => jacLoop A0 1 [] MJs

/-! ### Specification-side definitions (following the spec's words) -/

/-- Spec: "slice params per child, compute each child's matrix". -/
def sliceMats : List (PChild n) → List ℝ → List (CMat n)
  | [], _ => []
  | g :: rest, v =>
      g.mat (v.take g.num_inputs) :: sliceMats rest (v.drop g.num_inputs)

/-- Spec: per-child `(U, Js)` pairs at the contiguous slices. -/
def sliceMatJacs : List (PChild n) → List ℝ →
    List (CMat n × List (CMat n))
  | [], _ => []
  | g :: rest, v =>
      g.mat_jac (v.take g.num_inputs) :: sliceMatJacs rest (v.drop g.num_inputs)

/-- Spec: the circuit-order product `U_m ⬝ ⋯ ⬝ U_2 ⬝ U_1` of a list
`[U_1, …, U_m]` (each later child multiplied on the left). -/
def circuitProd (Ms : List (CMat n)) : CMat n := Ms.reverse.prod

/-- Spec: "for each child k, the derivative of the full product with
respect to one of child k's parameters equals
(product of all children after k) · J · (product of all children before k)";
`done` is the list of matrices of the children before the current one. -/
def jacFormulaFrom (done : List (CMat n)) :
    List (CMat n × List (CMat n)) → List (CMat n)
  | [] => []
  | (U, Js) :: rest =>
      Js.map (fun J =>
          circuitProd (rest.map Prod.fst) * J * circuitProd done)
        ++ jacFormulaFrom (done ++ [U]) rest

/-- Total declared parameter count of a child list
(`sum(gate.num_inputs for gate in subgates)`). -/
def totalInputs (gs : List (PChild n)) : ℕ := (gs.map (·.num_inputs)).sum

/-- Offset of child `k`'s parameter slice inside the flat vector. -/
def inputOffset (gs : List (PChild n)) (k : ℕ) : ℕ := totalInputs (gs.take k)

/-- The contiguous parameter slice of child `k`. -/
def sliceAt (gs : List (PChild n)) (v : List ℝ) (k : ℕ) (hk : k < gs.length) :
    List ℝ :=
  (v.drop (inputOffset gs k)).take (gs.get ⟨k, hk⟩).num_inputs

/-! ### Basic lemmas -/

theorem circuitProd_nil : circuitProd ([] : List (CMat n)) = 1 := by
  simp [circuitProd]

theorem circuitProd_singleton (M : CMat n) : circuitProd [M] = M := by
  simp [circuitProd]

theorem circuitProd_cons (M : CMat n) (Ms : List (CMat n)) :
    circuitProd (M :: Ms) = circuitProd Ms * M := by
  simp [circuitProd, List.prod_append]

theorem circuitProd_append (Ms Ns : List (CMat n)) :
    circuitProd (Ms ++ Ns) = circuitProd Ns * circuitProd Ms := by
  simp [circuitProd, List.prod_append]

theorem foldl_mul_eq (l : List (CMat n)) (a : CMat n) :
    l.foldl (fun U M => M * U) a = circuitProd l * a := by
  induction l generalizing a with
  | nil => simp [circuitProd_nil]
  | cons x xs ih => rw [List.foldl_cons, ih, circuitProd_cons, mul_assoc]

theorem foldMul_cons (m : CMat n) (rest : List (CMat n)) :
    foldMul (m :: rest) = some (circuitProd (m :: rest)) := by
  rw [foldMul, foldl_mul_eq, circuitProd_cons]

theorem childMats_eq (gs : List (PChild n)) (v : List ℝ) (index : ℕ) :
    childMats gs v index = sliceMats gs (v.drop index) := by
  induction gs generalizing index with
  | nil => rfl
  | cons g rest ih =>
      rw [childMats, sliceMats, ih (index + g.num_inputs), List.drop_drop]

theorem childMatJacs_eq (gs : List (PChild n)) (v : List ℝ) (index : ℕ) :
    childMatJacs gs v index = sliceMatJacs gs (v.drop index) := by
  induction gs generalizing index with
  | nil => rfl
  | cons g rest ih =>
      rw [childMatJacs, sliceMatJacs, ih (index + g.num_inputs), List.drop_drop]

/-- Refinement of `ProductGate.matrix`: it returns the circuit-order
product of the children's matrices at their contiguous slices. -/
theorem matrix_eq (gs : List (PChild n)) (v : List ℝ) (hne : gs ≠ [])
    (hlen : v.length = totalInputs gs) :
    matrix gs v = some (circuitProd (sliceMats gs v)) := by
  cases gs with
  | nil => exact absurd rfl hne
  | cons g rest =>
    cases rest with
    | nil =>
        have hv : v.take g.num_inputs = v := by
          apply List.take_of_length_le
          simp [totalInputs] at hlen
          omega
        simp [matrix, sliceMats, hv, circuitProd_singleton]
    | cons g₂ rest₂ =>
        rw [show matrix (g :: g₂ :: rest₂) v
              = foldMul (childMats (g :: g₂ :: rest₂) v 0) from rfl,
          childMats_eq, List.drop_zero, sliceMats, foldMul_cons]

/-- Invariant of the two-pass scan: entering the loop with the "after"
product of the unprocessed children and the "before" product of the
already processed ones, it produces the full product and the spec-formula
jacobians; unitarity (`U ⬝ Uᴴ = 1`) of each child matrix is what lets the
scan strip one factor per step. -/
theorem jacLoop_spec (MJs : List (CMat n × List (CMat n))) :
    ∀ (done : List (CMat n)) (jacs : List (CMat n)),
      (∀ p ∈ MJs, p.1 * p.1.conjTranspose = 1) →
      jacLoop (circuitProd (MJs.map Prod.fst)) (circuitProd done) jacs MJs
        = (circuitProd (done ++ MJs.map Prod.fst),
            jacs ++ jacFormulaFrom done MJs) := by
  induction MJs with
  | nil => intro done jacs _; simp [jacLoop, jacFormulaFrom]
  | cons p rest ih =>
      intro done jacs hunit
      obtain ⟨U, Js⟩ := p
      have hU : U * U.conjTranspose = 1 := hunit (U, Js) (by simp)
      have hA : circuitProd (((U, Js) :: rest).map Prod.fst) * U.conjTranspose
          = circuitProd (rest.map Prod.fst) := by
        rw [List.map_cons, circuitProd_cons, mul_assoc, hU, mul_one]
      have hB : U * circuitProd done = circuitProd (done ++ [U]) := by
        rw [circuitProd_append, circuitProd_singleton]
      simp only [jacLoop]
      rw [hA, hB, ih (done ++ [U]) _ (fun q hq => hunit q (by simp [hq]))]
      refine Prod.ext ?_ ?_
      · show circuitProd ((done ++ [U]) ++ rest.map Prod.fst) = _
        rw [List.append_assoc, List.singleton_append, List.map_cons]
      · show (jacs ++ _) ++ _ = jacs ++ jacFormulaFrom done ((U, Js) :: rest)
        rw [jacFormulaFrom, List.append_assoc]
        congr 2
        refine List.map_congr_left fun J _ => ?_
        rw [mul_assoc]

theorem jacFormulaFrom_length (MJs : List (CMat n × List (CMat n))) :
    ∀ done : List (CMat n),
      (jacFormulaFrom done MJs).length = (MJs.map fun p => p.2.length).sum := by
  induction MJs with
  | nil => intro done; simp [jacFormulaFrom]
  | cons p rest ih =>
      intro done
      obtain ⟨U, Js⟩ := p
      simp [jacFormulaFrom, ih]

/-- Position of the jacobian for local parameter `i` of child `k` inside
the flat jacobian list produced by the spec formula. -/
theorem jacFormulaFrom_getD (MJs : List (CMat n × List (CMat n))) :
    ∀ (done : List (CMat n)) (k : ℕ) (hk : k < MJs.length) (i : ℕ),
      i < (MJs.get ⟨k, hk⟩).2.length →
      (jacFormulaFrom done MJs).getD
          ((((MJs.take k).map fun p => p.2.length).sum) + i) 0
        = circuitProd ((MJs.map Prod.fst).drop (k + 1))
            * (MJs.get ⟨k, hk⟩).2.getD i 0
            * circuitProd (done ++ (MJs.map Prod.fst).take k) := by
  induction MJs with
  | nil => intro done k hk; exact absurd hk (by simp)
  | cons p rest ih =>
      intro done k hk i hi
      obtain ⟨U, Js⟩ := p
      cases k with
      | zero =>
          simp only [List.take_zero, List.map_nil, List.sum_nil, Nat.zero_add,
            jacFormulaFrom]
          have hi' : i < Js.length := by simpa using hi
          rw [List.getD_append _ _ _ _ (by simpa using hi'),
            List.getD_eq_getElem _ _ (by simpa using hi'), List.getElem_map]
          simp [List.getD_eq_getElem _ _ hi', List.getElem?_eq_getElem hi']
      | succ k' =>
          have hk' : k' < rest.length := by simpa using hk
          have hi' : i < (rest.get ⟨k', hk'⟩).2.length := by simpa using hi
          simp only [jacFormulaFrom, List.take_succ_cons, List.map_cons,
            List.sum_cons]
          rw [Nat.add_assoc, List.getD_append_right _ _ _ _ (by simp),
            List.length_map]
          rw [show Js.length + (((rest.take k').map fun p => p.2.length).sum + i)
                - Js.length
              = ((rest.take k').map fun p => p.2.length).sum + i by omega]
          rw [ih (done ++ [U]) k' hk' i hi']
          simp [List.append_assoc]

theorem inputOffset_zero (gs : List (PChild n)) : inputOffset gs 0 = 0 := by
  simp [inputOffset, totalInputs]

theorem inputOffset_cons_succ (g : PChild n) (rest : List (PChild n)) (k : ℕ) :
    inputOffset (g :: rest) (k + 1) = g.num_inputs + inputOffset rest k := by
  simp [inputOffset, totalInputs]

theorem sliceMatJacs_length (gs : List (PChild n)) :
    ∀ v : List ℝ, (sliceMatJacs gs v).length = gs.length := by
  induction gs with
  | nil => intro v; rfl
  | cons g rest ih => intro v; simp [sliceMatJacs, ih]

theorem sliceMatJacs_get (gs : List (PChild n)) :
    ∀ (v : List ℝ) (k : ℕ) (hk : k < gs.length),
      (sliceMatJacs gs v).get ⟨k, by rw [sliceMatJacs_length]; exact hk⟩
        = (gs.get ⟨k, hk⟩).mat_jac (sliceAt gs v k hk) := by
  induction gs with
  | nil => intro v k hk; exact absurd hk (by simp)
  | cons g rest ih =>
      intro v k hk
      cases k with
      | zero => simp [sliceMatJacs, sliceAt, inputOffset_zero]
      | succ k' =>
          have hk' : k' < rest.length := by simpa using hk
          have := ih (v.drop g.num_inputs) k' hk'
          simp only [sliceMatJacs, List.get_cons_succ] at this ⊢
          rw [this]
          congr 1
          rw [sliceAt, sliceAt, inputOffset_cons_succ, List.drop_drop]
          simp [List.get_cons_succ]

theorem sliceMatJacs_take_sum (gs : List (PChild n))
    (hcount : ∀ g ∈ gs, ∀ w : List ℝ, ((g.mat_jac w).2).length = g.num_inputs) :
    ∀ (v : List ℝ) (k : ℕ),
      (((sliceMatJacs gs v).take k).map fun p => p.2.length).sum
        = inputOffset gs k := by
  induction gs with
  | nil => intro v k; simp [sliceMatJacs, inputOffset, totalInputs]
  | cons g rest ih =>
      intro v k
      cases k with
      | zero => simp [inputOffset_zero]
      | succ k' =>
          rw [inputOffset_cons_succ]
          simp only [sliceMatJacs, List.take_succ_cons, List.map_cons,
            List.sum_cons]
          rw [hcount g (by simp) _,
            ih (fun g' hg' => hcount g' (by simp [hg'])) (v.drop g.num_inputs) k']

theorem sliceMatJacs_sum (gs : List (PChild n))
    (hcount : ∀ g ∈ gs, ∀ w : List ℝ, ((g.mat_jac w).2).length = g.num_inputs) :
    ∀ v : List ℝ,
      ((sliceMatJacs gs v).map fun p => p.2.length).sum = totalInputs gs := by
  induction gs with
  | nil => intro v; simp [sliceMatJacs, totalInputs]
  | cons g rest ih =>
      intro v
      simp only [sliceMatJacs, List.map_cons, List.sum_cons, totalInputs]
      rw [hcount g (by simp) _,
        ih (fun g' hg' => hcount g' (by simp [hg'])) (v.drop g.num_inputs)]
      rfl

theorem sliceMatJacs_map_fst (gs : List (PChild n))
    (hcons : ∀ g ∈ gs, ∀ w : List ℝ, (g.mat_jac w).1 = g.mat w) :
    ∀ v : List ℝ, (sliceMatJacs gs v).map Prod.fst = sliceMats gs v := by
  induction gs with
  | nil => intro v; rfl
  | cons g rest ih =>
      intro v
      simp only [sliceMatJacs, sliceMats, List.map_cons]
      rw [hcons g (by simp) _,
        ih (fun g' hg' => hcons g' (by simp [hg'])) (v.drop g.num_inputs)]

/-- Refinement of `ProductGate.mat_jac`: given unitary children it returns
the full circuit-order product and the spec-formula jacobian list. -/
theorem mat_jac_eq (gs : List (PChild n)) (v : List ℝ) (hne : gs ≠ [])
    (hlen : v.length = totalInputs gs)
    (hunit : ∀ p ∈ sliceMatJacs gs v, p.1 * p.1.conjTranspose = 1) :
    mat_jac gs v
      = some (circuitProd ((sliceMatJacs gs v).map Prod.fst),
          jacFormulaFrom [] (sliceMatJacs gs v)) := by
  cases gs with
  | nil => exact absurd rfl hne
  | cons g rest =>
    cases rest with
    | nil =>
        have hv : v.take g.num_inputs = v := by
          apply List.take_of_length_le
          simp [totalInputs] at hlen
          omega
        simp [mat_jac, sliceMatJacs, hv, jacFormulaFrom, circuitProd_singleton,
          circuitProd_nil]
    | cons g₂ rest₂ =>
        rw [show mat_jac (g :: g₂ :: rest₂) v
            = (foldMul ((childMatJacs (g :: g₂ :: rest₂) v 0).map Prod.fst)).map
                (fun A0 => jacLoop A0 1 [] (childMatJacs (g :: g₂ :: rest₂) v 0))
            from rfl]
        rw [childMatJacs_eq, List.drop_zero]
        have hc : sliceMatJacs (g :: g₂ :: rest₂) v
            = (g.mat_jac (v.take g.num_inputs))
                :: sliceMatJacs (g₂ :: rest₂) (v.drop g.num_inputs) := rfl
        rw [hc, List.map_cons, foldMul_cons, ← List.map_cons Prod.fst, ← hc,
          Option.map_some']
        rw [show (1 : CMat n) = circuitProd [] from (circuitProd_nil).symm,
          jacLoop_spec _ [] [] hunit]
        simp

/-! ### Updating one flat parameter -/

theorem take_set_comm :
    ∀ (l : List α) (p m : ℕ) (x : α), (l.set p x).take m = (l.take m).set p x := by
  intro l
  induction l with
  | nil => intro p m x; simp
  | cons a l ih =>
      intro p m x
      cases p with
      | zero => cases m with
          | zero => simp
          | succ m => simp
      | succ p => cases m with
          | zero => simp
          | succ m => simp [ih]

theorem drop_set_of_lt :
    ∀ (l : List α) (p m : ℕ) (x : α), p < m → (l.set p x).drop m = l.drop m := by
  intro l
  induction l with
  | nil => intro p m x _; simp
  | cons a l ih =>
      intro p m x h
      cases p with
      | zero => cases m with
          | zero => omega
          | succ m => simp
      | succ p => cases m with
          | zero => omega
          | succ m => simpa using ih p m x (by omega)

theorem drop_set_of_le :
    ∀ (l : List α) (p m : ℕ) (x : α), m ≤ p →
      (l.set p x).drop m = (l.drop m).set (p - m) x := by
  intro l
  induction l with
  | nil => intro p m x _; simp
  | cons a l ih =>
      intro p m x h
      cases m with
      | zero => simp
      | succ m =>
          cases p with
          | zero => omega
          | succ p => simpa [Nat.succ_sub_succ] using ih p m x (by omega)

theorem sliceMats_length (gs : List (PChild n)) :
    ∀ v : List ℝ, (sliceMats gs v).length = gs.length := by
  induction gs with
  | nil => intro v; rfl
  | cons g rest ih => intro v; simp [sliceMats, ih]

/-- Splitting the circuit-order product at an updated position. -/
theorem circuitProd_set (Ms : List (CMat n)) :
    ∀ (k : ℕ), k < Ms.length → ∀ X : CMat n,
      circuitProd (Ms.set k X)
        = circuitProd (Ms.drop (k + 1)) * X * circuitProd (Ms.take k) := by
  induction Ms with
  | nil => intro k hk; exact absurd hk (by simp)
  | cons M rest ih =>
      intro k hk X
      cases k with
      | zero => simp [circuitProd_cons, circuitProd_nil]
      | succ k' =>
          have hk' : k' < rest.length := by simpa using hk
          simp only [List.set_cons_succ, circuitProd_cons, ih k' hk' X,
            List.drop_succ_cons, List.take_succ_cons, mul_assoc]

/-- Setting flat parameter `inputOffset gs k + i` (the `i`-th parameter of
child `k`) changes exactly child `k`'s matrix in the per-child slice
evaluation. -/
theorem sliceMats_set (gs : List (PChild n)) :
    ∀ (v : List ℝ) (k : ℕ) (hk : k < gs.length) (i : ℕ),
      i < (gs.get ⟨k, hk⟩).num_inputs → ∀ x : ℝ,
      sliceMats gs (v.set (inputOffset gs k + i) x)
        = (sliceMats gs v).set k
            ((gs.get ⟨k, hk⟩).mat ((sliceAt gs v k hk).set i x)) := by
  induction gs with
  | nil => intro v k hk; exact absurd hk (by simp)
  | cons g rest ih =>
      intro v k hk i hi x
      cases k with
      | zero =>
          rw [inputOffset_zero, Nat.zero_add]
          show sliceMats (g :: rest) (v.set i x) = _
          simp only [sliceMats, List.set_cons_zero]
          rw [take_set_comm, drop_set_of_lt _ _ _ _ (by simpa using hi)]
          simp [sliceAt, inputOffset_zero]
      | succ k' =>
          have hk' : k' < rest.length := by simpa using hk
          rw [inputOffset_cons_succ, Nat.add_assoc]
          simp only [sliceMats, List.set_cons_succ]
          rw [take_set_comm,
            List.set_eq_of_length_le (by simp),
            drop_set_of_le _ _ _ _ (Nat.le_add_right _ _),
            Nat.add_sub_cancel_left,
            ih (v.drop g.num_inputs) k' hk' i (by simpa using hi) x]
          congr 2
          rw [sliceAt, sliceAt, inputOffset_cons_succ, List.drop_drop]
          simp [List.get_cons_succ]

/-! ### Entrywise derivatives of matrix-valued functions -/

/-- `J` is the elementwise derivative of the matrix-valued function `F`
at `t`. -/
def EntryDeriv (F : ℝ → CMat n) (J : CMat n) (t : ℝ) : Prop :=
  ∀ a b, HasDerivAt (fun s => F s a b) (J a b) t

theorem entryDeriv_congr {F G : ℝ → CMat n} {J : CMat n} {t : ℝ}
    (h : ∀ s, F s = G s) (hG : EntryDeriv G J t) : EntryDeriv F J t := by
  intro a b
  have he : (fun s => F s a b) = fun s => G s a b :=
    funext fun s => by rw [h s]
  rw [he]
  exact hG a b

theorem entryDeriv_const (C : CMat n) (t : ℝ) :
    EntryDeriv (fun _ => C) 0 t := by
  intro a b
  simpa using hasDerivAt_const t (C a b)

theorem entryDeriv_const_mul (C : CMat n) {F : ℝ → CMat n} {J : CMat n}
    {t : ℝ} (h : EntryDeriv F J t) :
    EntryDeriv (fun s => C * F s) (C * J) t := by
  intro a b
  have hd : HasDerivAt (fun s => ∑ x, C a x * F s x b)
      (∑ x, C a x * J x b) t :=
    HasDerivAt.sum fun x _ => (h x b).const_mul (C a x)
  simpa [Matrix.mul_apply] using hd

theorem entryDeriv_mul_const (D : CMat n) {F : ℝ → CMat n} {J : CMat n}
    {t : ℝ} (h : EntryDeriv F J t) :
    EntryDeriv (fun s => F s * D) (J * D) t := by
  intro a b
  have hd : HasDerivAt (fun s => ∑ x, F s a x * D x b)
      (∑ x, J a x * D x b) t :=
    HasDerivAt.sum fun x _ => (h a x).mul_const (D x b)
  simpa [Matrix.mul_apply] using hd

/-- Derivative of the composite's own matrix function with respect to one
flat parameter: varying flat parameter `inputOffset gs k + i` varies only
child `k`'s factor, and the elementwise derivative of the full product is
`(product after k) · J · (product before k)` for any elementwise derivative
`J` of child `k`'s matrix at its updated slice. -/
theorem matrix_entryDeriv (gs : List (PChild n)) (v : List ℝ) (hne : gs ≠ [])
    (hlen : v.length = totalInputs gs) (k : ℕ) (hk : k < gs.length) (i : ℕ)
    (hi : i < (gs.get ⟨k, hk⟩).num_inputs) (Jm : CMat n)
    (hderiv : EntryDeriv
      (fun s => (gs.get ⟨k, hk⟩).mat ((sliceAt gs v k hk).set i s)) Jm
      (v.getD (inputOffset gs k + i) 0)) :
    EntryDeriv (fun s => (matrix gs (v.set (inputOffset gs k + i) s)).getD 0)
      (circuitProd ((sliceMats gs v).drop (k + 1)) * Jm
        * circuitProd ((sliceMats gs v).take k))
      (v.getD (inputOffset gs k + i) 0) := by
  have hk2 : k < (sliceMats gs v).length := by
    rw [sliceMats_length]; exact hk
  have hfun : ∀ s : ℝ,
      (matrix gs (v.set (inputOffset gs k + i) s)).getD 0
        = circuitProd ((sliceMats gs v).drop (k + 1))
            * ((gs.get ⟨k, hk⟩).mat ((sliceAt gs v k hk).set i s))
            * circuitProd ((sliceMats gs v).take k) := by
    intro s
    rw [matrix_eq gs _ hne (by rw [List.length_set]; exact hlen),
      Option.getD_some, sliceMats_set gs v k hk i hi s,
      circuitProd_set _ k hk2]
  exact entryDeriv_congr hfun
    (entryDeriv_mul_const _ (entryDeriv_const_mul _ hderiv))

/-- C2: for a `ProductGate` with at least one child and a parameter vector
of length `num_inputs` sliced contiguously per child, `matrix(v)` equals
the circuit-order product `U_m ⋯ U_2 U_1` of the children's matrices;
appending a child multiplies its matrix on the left of the accumulated
product. -/
theorem matrix_spec (gs : List (PChild n)) (v : List ℝ) (hne : gs ≠ [])
    (hlen : v.length = totalInputs gs) :
    matrix gs v = some (circuitProd (sliceMats gs v)) ∧
      ∀ (Ms : List (CMat n)) (M : CMat n),
        circuitProd (Ms ++ [M]) = M * circuitProd Ms :=
  ⟨matrix_eq gs v hne hlen, fun Ms M => by
    rw [circuitProd_append, circuitProd_singleton]⟩

/-- A zero-parameter child whose matrix is the identity. -/
def idChild (n : ℕ) : PChild n := ⟨0, fun _ => 1, fun _ => (1, [])⟩

/-- Witness for C2 at a concrete two-child `ProductGate` and empty
parameter vector. -/
theorem matrix_spec_witness :
    (([idChild 2, idChild 2] : List (PChild 2)) ≠ [] ∧
        ([] : List ℝ).length = totalInputs [idChild 2, idChild 2]) ∧
      (matrix [idChild 2, idChild 2] ([] : List ℝ)
          = some (circuitProd (sliceMats [idChild 2, idChild 2] [])) ∧
        ∀ (Ms : List (CMat 2)) (M : CMat 2),
          circuitProd (Ms ++ [M]) = M * circuitProd Ms) :=
  ⟨⟨by simp, by simp [totalInputs, idChild]⟩,
    matrix_spec [idChild 2, idChild 2] [] (by simp)
      (by simp [totalInputs, idChild])⟩

/-- C1: for a `ProductGate` whose children all supply jacobians (one per
parameter) with unitary matrices, `mat_jac(v)` returns the full product
and one jacobian per flat parameter in parameter order; the jacobian at
flat position `inputOffset k + i` (the `i`-th parameter of child `k`)
equals `(product of children after k) · J_{k,i} · (product of children
before k)`, and that matrix is the elementwise derivative of the
composite's own `matrix` function with respect to that flat parameter. -/
theorem mat_jac_spec (gs : List (PChild n)) (v : List ℝ) (hne : gs ≠ [])
    (hlen : v.length = totalInputs gs)
    (hcount : ∀ g ∈ gs, ∀ w : List ℝ, ((g.mat_jac w).2).length = g.num_inputs)
    (hcons : ∀ g ∈ gs, ∀ w : List ℝ, (g.mat_jac w).1 = g.mat w)
    (hunit : ∀ p ∈ sliceMatJacs gs v, p.1 * p.1.conjTranspose = 1)
    (hderiv : ∀ (k : ℕ) (hk : k < gs.length) (i : ℕ),
      i < (gs.get ⟨k, hk⟩).num_inputs →
      EntryDeriv
        (fun s => (gs.get ⟨k, hk⟩).mat ((sliceAt gs v k hk).set i s))
        (((gs.get ⟨k, hk⟩).mat_jac (sliceAt gs v k hk)).2.getD i 0)
        (v.getD (inputOffset gs k + i) 0)) :
    mat_jac gs v
        = some (circuitProd ((sliceMatJacs gs v).map Prod.fst),
            jacFormulaFrom [] (sliceMatJacs gs v)) ∧
      (jacFormulaFrom [] (sliceMatJacs gs v)).length = totalInputs gs ∧
      (∀ (k : ℕ) (hk : k < gs.length) (i : ℕ),
        i < (gs.get ⟨k, hk⟩).num_inputs →
        (jacFormulaFrom [] (sliceMatJacs gs v)).getD (inputOffset gs k + i) 0
          = circuitProd ((sliceMats gs v).drop (k + 1))
              * ((gs.get ⟨k, hk⟩).mat_jac (sliceAt gs v k hk)).2.getD i 0
              * circuitProd ((sliceMats gs v).take k)) ∧
      (∀ (k : ℕ) (hk : k < gs.length) (i : ℕ),
        i < (gs.get ⟨k, hk⟩).num_inputs →
        EntryDeriv
          (fun s => (matrix gs (v.set (inputOffset gs k + i) s)).getD 0)
          (circuitProd ((sliceMats gs v).drop (k + 1))
            * ((gs.get ⟨k, hk⟩).mat_jac (sliceAt gs v k hk)).2.getD i 0
            * circuitProd ((sliceMats gs v).take k))
          (v.getD (inputOffset gs k + i) 0)) := by
  have hmapfst := sliceMatJacs_map_fst gs hcons v
  have hgetjac : ∀ (k : ℕ) (hk : k < gs.length),
      (sliceMatJacs gs v).get ⟨k, by rw [sliceMatJacs_length]; exact hk⟩
        = (gs.get ⟨k, hk⟩).mat_jac (sliceAt gs v k hk) :=
    fun k hk => sliceMatJacs_get gs v k hk
  refine ⟨mat_jac_eq gs v hne hlen hunit, ?_, ?_, ?_⟩
  · rw [jacFormulaFrom_length, sliceMatJacs_sum gs hcount v]
  · intro k hk i hi
    have hkJ : k < (sliceMatJacs gs v).length := by
      rw [sliceMatJacs_length]; exact hk
    have hiJ : i < ((sliceMatJacs gs v).get ⟨k, hkJ⟩).2.length := by
      rw [hgetjac k hk, hcount _ (List.get_mem gs k hk) _]
      exact hi
    have := jacFormulaFrom_getD (sliceMatJacs gs v) [] k hkJ i hiJ
    rw [sliceMatJacs_take_sum gs hcount v k] at this
    rw [this, hgetjac k hk, hmapfst, List.nil_append]
  · intro k hk i hi
    exact matrix_entryDeriv gs v hne hlen k hk i hi _ (hderiv k hk i hi)

/-- A one-parameter child whose matrix is constantly the identity and
whose single jacobian is the zero matrix. -/
def flatChild : PChild 1 := ⟨1, fun _ => 1, fun _ => (1, [0])⟩

/-- Witness for C1 at a concrete two-child `ProductGate` with one
parameter per child. -/
theorem mat_jac_spec_witness :
    (([flatChild, flatChild] : List (PChild 1)) ≠ [] ∧
        ([0, 0] : List ℝ).length = totalInputs [flatChild, flatChild] ∧
        (∀ p ∈ sliceMatJacs [flatChild, flatChild] ([0, 0] : List ℝ),
          p.1 * p.1.conjTranspose = 1)) ∧
      (mat_jac [flatChild, flatChild] ([0, 0] : List ℝ)
          = some (circuitProd
                ((sliceMatJacs [flatChild, flatChild] [0, 0]).map Prod.fst),
              jacFormulaFrom [] (sliceMatJacs [flatChild, flatChild] [0, 0])) ∧
        (jacFormulaFrom [] (sliceMatJacs [flatChild, flatChild] [0, 0])).length
          = totalInputs [flatChild, flatChild] ∧
        (∀ (k : ℕ) (hk : k < ([flatChild, flatChild] : List (PChild 1)).length)
            (i : ℕ),
          i < (([flatChild, flatChild] : List (PChild 1)).get ⟨k, hk⟩).num_inputs →
          (jacFormulaFrom []
                (sliceMatJacs [flatChild, flatChild] [0, 0])).getD
              (inputOffset [flatChild, flatChild] k + i) 0
            = circuitProd
                  ((sliceMats [flatChild, flatChild] [0, 0]).drop (k + 1))
                * ((([flatChild, flatChild] : List (PChild 1)).get
                      ⟨k, hk⟩).mat_jac
                    (sliceAt [flatChild, flatChild] [0, 0] k hk)).2.getD i 0
                * circuitProd
                    ((sliceMats [flatChild, flatChild] [0, 0]).take k)) ∧
        (∀ (k : ℕ) (hk : k < ([flatChild, flatChild] : List (PChild 1)).length)
            (i : ℕ),
          i < (([flatChild, flatChild] : List (PChild 1)).get ⟨k, hk⟩).num_inputs →
          EntryDeriv
            (fun s => (matrix [flatChild, flatChild]
                (([0, 0] : List ℝ).set (inputOffset [flatChild, flatChild] k + i) s)).getD 0)
            (circuitProd ((sliceMats [flatChild, flatChild] [0, 0]).drop (k + 1))
              * ((([flatChild, flatChild] : List (PChild 1)).get ⟨k, hk⟩).mat_jac
                  (sliceAt [flatChild, flatChild] [0, 0] k hk)).2.getD i 0
              * circuitProd ((sliceMats [flatChild, flatChild] [0, 0]).take k))
            (([0, 0] : List ℝ).getD (inputOffset [flatChild, flatChild] k + i) 0))) := by
  have hne : ([flatChild, flatChild] : List (PChild 1)) ≠ [] := by simp
  have hlen : ([0, 0] : List ℝ).length = totalInputs [flatChild, flatChild] := by
    simp [totalInputs, flatChild]
  have hcount : ∀ g ∈ ([flatChild, flatChild] : List (PChild 1)),
      ∀ w : List ℝ, ((g.mat_jac w).2).length = g.num_inputs := by
    intro g hg w
    simp only [List.mem_cons, List.not_mem_nil, or_false] at hg
    rcases hg with rfl | rfl <;> rfl
  have hcons : ∀ g ∈ ([flatChild, flatChild] : List (PChild 1)),
      ∀ w : List ℝ, (g.mat_jac w).1 = g.mat w := by
    intro g hg w
    simp only [List.mem_cons, List.not_mem_nil, or_false] at hg
    rcases hg with rfl | rfl <;> rfl
  have hunit : ∀ p ∈ sliceMatJacs [flatChild, flatChild] ([0, 0] : List ℝ),
      p.1 * p.1.conjTranspose = 1 := by
    intro p hp
    have : sliceMatJacs [flatChild, flatChild] ([0, 0] : List ℝ)
        = [(1, [0]), (1, [0])] := rfl
    rw [this] at hp
    simp only [List.mem_cons, List.not_mem_nil, or_false] at hp
    rcases hp with rfl | rfl <;> simp
  have hderiv : ∀ (k : ℕ) (hk : k < ([flatChild, flatChild] : List (PChild 1)).length)
      (i : ℕ), i < (([flatChild, flatChild] : List (PChild 1)).get ⟨k, hk⟩).num_inputs →
      EntryDeriv
        (fun s => (([flatChild, flatChild] : List (PChild 1)).get ⟨k, hk⟩).mat
          ((sliceAt [flatChild, flatChild] [0, 0] k hk).set i s))
        (((([flatChild, flatChild] : List (PChild 1)).get ⟨k, hk⟩).mat_jac
            (sliceAt [flatChild, flatChild] [0, 0] k hk)).2.getD i 0)
        (([0, 0] : List ℝ).getD (inputOffset [flatChild, flatChild] k + i) 0) := by
    intro k hk i hi
    have hk2 : k < 2 := by simpa using hk
    interval_cases k <;>
    · have h0 : i = 0 := by
        have h1 : i < 1 := by simpa [flatChild] using hi
        omega
      subst h0
      exact entryDeriv_congr (G := fun _ => (1 : CMat 1))
        (fun s => rfl) (by simpa [flatChild] using entryDeriv_const (1 : CMat 1) _)
  exact ⟨⟨hne, hlen, hunit⟩,
    mat_jac_spec [flatChild, flatChild] [0, 0] hne hlen hcount hcons hunit hderiv⟩

end ProductGate

/-! ## Tensor composition: `KroneckerGate` (C3, C4)

The children of a `KroneckerGate` have different sizes, so their matrices
are embedded as functions `ℕ → ℕ → ℂ` together with an explicit size
(`d**qudits`); `np.kron` on square blocks is the block-index formula
`kron(A, B)[i, j] = A[i / b, j / b] * B[i % b, j % b]` with `b` the size of
the right factor. -/

/-- A square complex matrix of unspecified size, indexed by `ℕ`. -/
abbrev KMat := ℕ → ℕ → ℂ

/-- `np.kron A B` where the right factor `B` is square of size `b`. -/
def kron (b : ℕ) (A B : KMat) : KMat :=
  fun i j => A (i / b) (j / b) * B (i % b) (j % b)

/-- A child gate as used by `KroneckerGate`: `num_inputs`, the size of the
matrices it returns, and its `matrix` / `mat_jac` methods. -/
structure KChild where
  num_inputs : ℕ
  dim : ℕ
  mat : List ℝ → KMat
  mat_jac : List ℝ → KMat × List KMat

namespace KroneckerGate

/-- One step of the left-to-right Kronecker fold `U = np.kron(U, M)`,
tracking sizes. -/
def kstep (U M : ℕ × KMat) : ℕ × KMat := (U.1 * M.1, kron M.1 U.2 M.2)

/-- The slicing loop of `KroneckerGate.matrix`, collecting each child's
`(size, matrix)` at `v[index:index+gate.num_inputs]`. -/
def childMats : List KChild → List ℝ → ℕ → List (ℕ × KMat)
  | [], _, _ => []
  | g :: rest, v, index =>
      (g.dim, g.mat ((v.drop index).take g.num_inputs))
        :: childMats rest v (index + g.num_inputs)

/-- The slicing loop of `KroneckerGate.mat_jac`. -/
def childMatJacs : List KChild → List ℝ → ℕ →
    List (ℕ × (KMat × List KMat))
  | [], _, _ => []
  | g :: rest, v, index =>
      (g.dim, g.mat_jac ((v.drop index).take g.num_inputs))
        :: childMatJacs rest v (index + g.num_inputs)

/-- `U = matrices[0]; for matrix in matrices[1:]: U = np.kron(U, matrix)`
(`none` models the `IndexError` on an empty child list). -/
def kronFold : List (ℕ × KMat) → Option (ℕ × KMat)
  | [] => none
  | m :: rest => some (rest.foldl kstep m)

/-- `KroneckerGate.matrix(v)`: fewer than two children short-circuits to
`self._subgates[0].matrix(v)`. -/
def matrix (gs : List KChild) (v : List ℝ) : Option KMat :=
  match gs with
  | [] => none
  | [g] => some (g.mat v)
  | _ => (kronFold (childMats gs v 0)).map Prod.snd

/-- The accumulation loop of `KroneckerGate.mat_jac`:
`jacs = [np.kron(J, M) for J in jacs]`, then
`for J in Js: jacs.append(J if U is None else np.kron(U, J))`, then
`U = M if U is None else np.kron(U, M)`. -/
def jacLoop : Option (ℕ × KMat) → List KMat →
    List (ℕ × (KMat × List KMat)) → Option (ℕ × KMat) × List KMat
  | U, jacs, [] => (U, jacs)
  | U, jacs, (dm, (M, Js)) :: rest =>
      jacLoop
        (match U with
          | none => some (dm, M)
          | some q => some (q.1 * dm, kron dm q.2 M))
        ((jacs.map fun J => kron dm J M)
          ++ Js.map (fun J =>
              match U with
              | none => J
              | some q => kron dm q.2 J))
        rest

/-- `KroneckerGate.mat_jac(v)`: fewer than two children short-circuits to
`self._subgates[0].mat_jac(v)`. -/
def mat_jac (gs : List KChild) (v : List ℝ) : Option (KMat × List KMat) :=
  match gs with
  | [] => none
  | [g] => some (g.mat_jac v)
  | _ =>
      let res := jacLoop none [] (childMatJacs gs v 0)
      res.1.map fun q => (q.2, res.2)

/-! ### Specification-side definitions -/

/-- Spec: slice `params` contiguously per child in order and compute each
child's `(size, matrix)`. -/
def sliceDimMats : List KChild → List ℝ → List (ℕ × KMat)
  | [], _ => []
  | g :: rest, v =>
      (g.dim, g.mat (v.take g.num_inputs))
        :: sliceDimMats rest (v.drop g.num_inputs)

/-- Spec: per-child `(size, (U, Js))` at the contiguous slices. -/
def sliceDimMatJacs : List KChild → List ℝ →
    List (ℕ × (KMat × List KMat))
  | [], _ => []
  | g :: rest, v =>
      (g.dim, g.mat_jac (v.take g.num_inputs))
        :: sliceDimMatJacs rest (v.drop g.num_inputs)

/-- Spec: the left-to-right Kronecker product of a list of
`(size, matrix)` pairs.  The value at `[]` is irrelevant: every use below
is on a nonempty list, mirroring the code where the accumulator `U` is
`None` only before the first child. -/
def kronAll : List (ℕ × KMat) → ℕ × KMat
  | [] => (1, fun _ _ => 1)
  | m :: rest => rest.foldl kstep m

/-- The `(size, matrix)` part of a `(size, (U, Js))` triple. -/
def dmFst (p : ℕ × (KMat × List KMat)) : ℕ × KMat := (p.1, p.2.1)

/-- Spec: the claim's jacobian formula — for each child in order and each
of its jacobians `J`, the left-to-right Kronecker product of all
children's matrices with that child's matrix replaced by `J`; `done` holds
the `(size, matrix)` pairs of the children already passed. -/
def kronJacsFrom (done : List (ℕ × KMat)) :
    List (ℕ × (KMat × List KMat)) → List KMat
  | [] => []
  | (dm, (M, Js)) :: rest =>
      Js.map (fun J => (kronAll (done ++ (dm, J) :: rest.map dmFst)).2)
        ++ kronJacsFrom (done ++ [(dm, M)]) rest

/-- Total declared parameter count. -/
def totalInputs (gs : List KChild) : ℕ := (gs.map (·.num_inputs)).sum

/-- Offset of child `k`'s parameter slice inside the flat vector. -/
def inputOffset (gs : List KChild) (k : ℕ) : ℕ := totalInputs (gs.take k)

/-- The contiguous parameter slice of child `k`. -/
def sliceAt (gs : List KChild) (v : List ℝ) (k : ℕ) (hk : k < gs.length) :
    List ℝ :=
  (v.drop (inputOffset gs k)).take (gs.get ⟨k, hk⟩).num_inputs

/-! ### Basic lemmas -/

theorem kron_childMats_eq (gs : List KChild) (v : List ℝ) (index : ℕ) :
    childMats gs v index = sliceDimMats gs (v.drop index) := by
  induction gs generalizing index with
  | nil => rfl
  | cons g rest ih =>
      rw [childMats, sliceDimMats, ih (index + g.num_inputs), List.drop_drop]

theorem kron_childMatJacs_eq (gs : List KChild) (v : List ℝ) (index : ℕ) :
    childMatJacs gs v index = sliceDimMatJacs gs (v.drop index) := by
  induction gs generalizing index with
  | nil => rfl
  | cons g rest ih =>
      rw [childMatJacs, sliceDimMatJacs, ih (index + g.num_inputs),
        List.drop_drop]

theorem foldl_kstep_snd (Ms : List (ℕ × KMat)) :
    ∀ q : ℕ × KMat,
      (Ms.foldl kstep q).2
        = Ms.foldl (fun (X : KMat) p => kron p.1 X p.2) q.2 := by
  induction Ms with
  | nil => intro q; rfl
  | cons m rest ih => intro q; exact ih (kstep q m)

theorem kronAll_snd (m : ℕ × KMat) (l : List (ℕ × KMat)) :
    (kronAll (m :: l)).2 = l.foldl (fun (X : KMat) p => kron p.1 X p.2) m.2 :=
  foldl_kstep_snd l m

theorem kronAll_append (done z : List (ℕ × KMat)) (h : done ≠ []) :
    kronAll (done ++ z) = z.foldl kstep (kronAll done) := by
  cases done with
  | nil => exact absurd rfl h
  | cons m t => simp [kronAll, List.foldl_append]

/-- Invariant of the accumulation loop: entering it with the Kronecker
product of the processed children and their jacobians, it extends every
stored jacobian by the remaining plain matrices and appends the
replacement-formula jacobians of the remaining children. -/
theorem kron_jacLoop_spec (rest : List (ℕ × (KMat × List KMat))) :
    ∀ (done : List (ℕ × KMat)), done ≠ [] → ∀ jacs : List KMat,
      jacLoop (some (kronAll done)) jacs rest
        = (some (kronAll (done ++ rest.map dmFst)),
            jacs.map (fun J =>
                (rest.map dmFst).foldl (fun (X : KMat) p => kron p.1 X p.2) J)
              ++ kronJacsFrom done rest) := by
  induction rest with
  | nil =>
      intro done _ jacs
      simp [jacLoop, kronJacsFrom]
  | cons p rest ih =>
      intro done hdone jacs
      obtain ⟨dm, M, Js⟩ := p
      have hstep : kstep (kronAll done) (dm, M) = kronAll (done ++ [(dm, M)]) := by
        rw [kronAll_append done [(dm, M)] hdone]
        rfl
      show jacLoop (some ((kronAll done).1 * dm, kron dm (kronAll done).2 M))
            ((jacs.map fun J => kron dm J M)
              ++ Js.map fun J => kron dm (kronAll done).2 J) rest
          = _
      rw [show ((kronAll done).1 * dm, kron dm (kronAll done).2 M)
            = kronAll (done ++ [(dm, M)]) from hstep,
        ih (done ++ [(dm, M)]) (by simp) _]
      refine Prod.ext ?_ ?_
      · show some (kronAll ((done ++ [(dm, M)]) ++ rest.map dmFst)) = _
        rw [List.append_assoc, List.singleton_append]
        rfl
      · show (jacs.map _ ++ Js.map _).map _ ++ _ = _
        rw [List.map_append, List.map_map, List.map_map, List.append_assoc]
        show _ = jacs.map (fun J =>
              (((dm, (M, Js)) :: rest).map dmFst).foldl
                (fun (X : KMat) p => kron p.1 X p.2) J)
            ++ kronJacsFrom done ((dm, (M, Js)) :: rest)
        rw [kronJacsFrom]
        congr 1
        congr 1
        refine List.map_congr_left fun J _ => ?_
        show (rest.map dmFst).foldl _ (kron dm (kronAll done).2 J) = _
        rw [show kron dm (kronAll done).2 J = (kstep (kronAll done) (dm, J)).2
            from rfl,
          ← foldl_kstep_snd, kronAll_append done ((dm, J) :: rest.map dmFst)
            hdone]
        rfl

/-- First step of the loop, where `U` is still `None`: the first child's
matrix and jacobians are taken as they are. -/
theorem jacLoop_none (x : ℕ × (KMat × List KMat))
    (xs : List (ℕ × (KMat × List KMat))) :
    jacLoop none [] (x :: xs)
      = (some (kronAll ((x :: xs).map dmFst)), kronJacsFrom [] (x :: xs)) := by
  obtain ⟨dm, M, Js⟩ := x
  show jacLoop (some (dm, M)) ([] ++ Js.map fun J => J) xs = _
  rw [List.nil_append, List.map_id']
  rw [show ((dm, M) : ℕ × KMat) = kronAll [(dm, M)] from rfl,
    kron_jacLoop_spec xs [(dm, M)] (by simp) Js]
  refine Prod.ext rfl ?_
  show Js.map (fun J =>
        (xs.map dmFst).foldl (fun (X : KMat) p => kron p.1 X p.2) J)
      ++ kronJacsFrom [(dm, M)] xs
    = kronJacsFrom [] ((dm, (M, Js)) :: xs)
  rw [kronJacsFrom, List.nil_append]
  congr 1
  refine List.map_congr_left fun J _ => ?_
  rw [show (([] : List (ℕ × KMat)) ++ (dm, J) :: xs.map dmFst)
      = (dm, J) :: xs.map dmFst from rfl, kronAll_snd]

/-- Refinement of `KroneckerGate.matrix`: it returns the left-to-right
Kronecker product of the children's matrices at their contiguous slices. -/
theorem kron_matrix_eq (gs : List KChild) (v : List ℝ) (hne : gs ≠ [])
    (hlen : v.length = totalInputs gs) :
    matrix gs v = some ((kronAll (sliceDimMats gs v)).2) := by
  cases gs with
  | nil => exact absurd rfl hne
  | cons g rest =>
    cases rest with
    | nil =>
        have hv : v.take g.num_inputs = v := by
          apply List.take_of_length_le
          simp [totalInputs] at hlen
          omega
        simp [matrix, sliceDimMats, hv, kronAll]
    | cons g₂ rest₂ =>
        rw [show matrix (g :: g₂ :: rest₂) v
              = (kronFold (childMats (g :: g₂ :: rest₂) v 0)).map Prod.snd
            from rfl,
          kron_childMats_eq, List.drop_zero]
        rfl

/-- Refinement of `KroneckerGate.mat_jac`: it returns the full Kronecker
product and the replacement-formula jacobian list, one per parameter in
flat order. -/
theorem kron_mat_jac_eq (gs : List KChild) (v : List ℝ) (hne : gs ≠ [])
    (hlen : v.length = totalInputs gs) :
    mat_jac gs v
      = some ((kronAll ((sliceDimMatJacs gs v).map dmFst)).2,
          kronJacsFrom [] (sliceDimMatJacs gs v)) := by
  cases gs with
  | nil => exact absurd rfl hne
  | cons g rest =>
    cases rest with
    | nil =>
        have hv : v.take g.num_inputs = v := by
          apply List.take_of_length_le
          simp [totalInputs] at hlen
          omega
        simp [mat_jac, sliceDimMatJacs, hv, kronJacsFrom, kronAll, dmFst,
          List.map_id']
    | cons g₂ rest₂ =>
        rw [show mat_jac (g :: g₂ :: rest₂) v
              = ((jacLoop none [] (childMatJacs (g :: g₂ :: rest₂) v 0)).1).map
                  (fun q =>
                    (q.2, (jacLoop none [] (childMatJacs (g :: g₂ :: rest₂) v 0)).2))
            from rfl,
          kron_childMatJacs_eq, List.drop_zero,
          show sliceDimMatJacs (g :: g₂ :: rest₂) v
              = (g.dim, g.mat_jac (v.take g.num_inputs))
                  :: sliceDimMatJacs (g₂ :: rest₂) (v.drop g.num_inputs)
            from rfl,
          jacLoop_none]
        rfl

theorem kron_inputOffset_zero (gs : List KChild) : inputOffset gs 0 = 0 := by
  simp [inputOffset, totalInputs]

theorem kron_inputOffset_cons_succ (g : KChild) (rest : List KChild) (k : ℕ) :
    inputOffset (g :: rest) (k + 1) = g.num_inputs + inputOffset rest k := by
  simp [inputOffset, totalInputs]

theorem sliceDimMatJacs_length (gs : List KChild) :
    ∀ v : List ℝ, (sliceDimMatJacs gs v).length = gs.length := by
  induction gs with
  | nil => intro v; rfl
  | cons g rest ih => intro v; simp [sliceDimMatJacs, ih]

theorem sliceDimMatJacs_get (gs : List KChild) :
    ∀ (v : List ℝ) (k : ℕ) (hk : k < gs.length),
      (sliceDimMatJacs gs v).get ⟨k, by rw [sliceDimMatJacs_length]; exact hk⟩
        = ((gs.get ⟨k, hk⟩).dim,
            (gs.get ⟨k, hk⟩).mat_jac (sliceAt gs v k hk)) := by
  induction gs with
  | nil => intro v k hk; exact absurd hk (by simp)
  | cons g rest ih =>
      intro v k hk
      cases k with
      | zero => simp [sliceDimMatJacs, sliceAt, kron_inputOffset_zero]
      | succ k' =>
          have hk' : k' < rest.length := by simpa using hk
          have := ih (v.drop g.num_inputs) k' hk'
          simp only [sliceDimMatJacs, List.get_cons_succ] at this ⊢
          rw [this]
          congr 2
          rw [sliceAt, sliceAt, kron_inputOffset_cons_succ, List.drop_drop]
          simp [List.get_cons_succ]

theorem sliceDimMatJacs_take_sum (gs : List KChild)
    (hcount : ∀ g ∈ gs, ∀ w : List ℝ, ((g.mat_jac w).2).length = g.num_inputs) :
    ∀ (v : List ℝ) (k : ℕ),
      (((sliceDimMatJacs gs v).take k).map fun p => p.2.2.length).sum
        = inputOffset gs k := by
  induction gs with
  | nil => intro v k; simp [sliceDimMatJacs, inputOffset, totalInputs]
  | cons g rest ih =>
      intro v k
      cases k with
      | zero => simp [kron_inputOffset_zero]
      | succ k' =>
          rw [kron_inputOffset_cons_succ]
          simp only [sliceDimMatJacs, List.take_succ_cons, List.map_cons,
            List.sum_cons]
          rw [hcount g (by simp) _,
            ih (fun g' hg' => hcount g' (by simp [hg'])) (v.drop g.num_inputs) k']

theorem sliceDimMatJacs_sum (gs : List KChild)
    (hcount : ∀ g ∈ gs, ∀ w : List ℝ, ((g.mat_jac w).2).length = g.num_inputs) :
    ∀ v : List ℝ,
      ((sliceDimMatJacs gs v).map fun p => p.2.2.length).sum = totalInputs gs := by
  induction gs with
  | nil => intro v; simp [sliceDimMatJacs, totalInputs]
  | cons g rest ih =>
      intro v
      simp only [sliceDimMatJacs, List.map_cons, List.sum_cons, totalInputs]
      rw [hcount g (by simp) _,
        ih (fun g' hg' => hcount g' (by simp [hg'])) (v.drop g.num_inputs)]
      rfl

theorem kronJacsFrom_length (MJs : List (ℕ × (KMat × List KMat))) :
    ∀ done : List (ℕ × KMat),
      (kronJacsFrom done MJs).length = (MJs.map fun p => p.2.2.length).sum := by
  induction MJs with
  | nil => intro done; simp [kronJacsFrom]
  | cons p rest ih =>
      intro done
      obtain ⟨dm, M, Js⟩ := p
      simp [kronJacsFrom, ih]

/-- Position of the jacobian for local parameter `i` of child `k` inside
the flat replacement-formula list. -/
theorem kronJacsFrom_getD (MJs : List (ℕ × (KMat × List KMat))) :
    ∀ (done : List (ℕ × KMat)) (k : ℕ) (hk : k < MJs.length) (i : ℕ),
      i < (MJs.get ⟨k, hk⟩).2.2.length →
      (kronJacsFrom done MJs).getD
          ((((MJs.take k).map fun p => p.2.2.length).sum) + i) 0
        = (kronAll (done ++ (MJs.map dmFst).take k
            ++ ((MJs.get ⟨k, hk⟩).1, (MJs.get ⟨k, hk⟩).2.2.getD i 0)
              :: (MJs.map dmFst).drop (k + 1))).2 := by
  induction MJs with
  | nil => intro done k hk; exact absurd hk (by simp)
  | cons p rest ih =>
      intro done k hk i hi
      obtain ⟨dm, M, Js⟩ := p
      cases k with
      | zero =>
          simp only [List.take_zero, List.map_nil, List.sum_nil, Nat.zero_add,
            kronJacsFrom]
          have hi' : i < Js.length := by simpa using hi
          rw [List.getD_append _ _ _ _ (by simpa using hi'),
            List.getD_eq_getElem _ _ (by simpa using hi'), List.getElem_map]
          simp [List.getD_eq_getElem _ _ hi', List.getElem?_eq_getElem hi']
      | succ k' =>
          have hk' : k' < rest.length := by simpa using hk
          have hi' : i < (rest.get ⟨k', hk'⟩).2.2.length := by simpa using hi
          simp only [kronJacsFrom, List.take_succ_cons, List.map_cons,
            List.sum_cons]
          rw [Nat.add_assoc, List.getD_append_right _ _ _ _ (by simp),
            List.length_map]
          rw [show Js.length + (((rest.take k').map fun p => p.2.2.length).sum + i)
                - Js.length
              = ((rest.take k').map fun p => p.2.2.length).sum + i by omega]
          rw [ih (done ++ [(dm, M)]) k' hk' i hi']
          simp [List.append_assoc, dmFst]

/-- C4: for a `KroneckerGate` with at least one child and a parameter
vector of length `num_inputs` sliced contiguously per child in order,
`matrix(v)` equals the left-to-right Kronecker product of the children's
matrices; in particular, for two children it is
`np.kron(U_child1, U_child2)`. -/
theorem kron_matrix_spec (gs : List KChild) (v : List ℝ) (hne : gs ≠ [])
    (hlen : v.length = totalInputs gs) :
    matrix gs v = some ((kronAll (sliceDimMats gs v)).2) ∧
      ∀ (g₁ g₂ : KChild) (w : List ℝ), w.length = totalInputs [g₁, g₂] →
        matrix [g₁, g₂] w
          = some (kron g₂.dim (g₁.mat (w.take g₁.num_inputs))
              (g₂.mat ((w.drop g₁.num_inputs).take g₂.num_inputs))) := by
  refine ⟨kron_matrix_eq gs v hne hlen, fun g₁ g₂ w hw => ?_⟩
  rw [kron_matrix_eq [g₁, g₂] w (by simp) hw]
  rfl

/-- A zero-parameter child of size 2 whose matrix has all entries 1. -/
def onesChild : KChild :=
  ⟨0, 2, fun _ => fun _ _ => 1, fun _ => (fun _ _ => 1, [])⟩

/-- A one-parameter child of size 3 whose matrix has all entries 1 and
whose single jacobian is the zero matrix. -/
def onesJacChild : KChild :=
  ⟨1, 3, fun _ => fun _ _ => 1, fun _ => (fun _ _ => 1, [fun _ _ => 0])⟩

/-- Witness for C4 at a concrete two-child `KroneckerGate`. -/
theorem kron_matrix_spec_witness :
    (([onesChild, onesJacChild] : List KChild) ≠ [] ∧
        ([0] : List ℝ).length = totalInputs [onesChild, onesJacChild]) ∧
      (matrix [onesChild, onesJacChild] ([0] : List ℝ)
          = some ((kronAll (sliceDimMats [onesChild, onesJacChild] [0])).2) ∧
        ∀ (g₁ g₂ : KChild) (w : List ℝ), w.length = totalInputs [g₁, g₂] →
          matrix [g₁, g₂] w
            = some (kron g₂.dim (g₁.mat (w.take g₁.num_inputs))
                (g₂.mat ((w.drop g₁.num_inputs).take g₂.num_inputs)))) :=
  ⟨⟨by simp, by simp [totalInputs, onesChild, onesJacChild]⟩,
    kron_matrix_spec [onesChild, onesJacChild] [0] (by simp)
      (by simp [totalInputs, onesChild, onesJacChild])⟩

/-- C3: for a `KroneckerGate` whose children all supply jacobians (one per
parameter), `mat_jac(v)` returns the full Kronecker product and one
jacobian per flat parameter in parameter order; the jacobian at flat
position `inputOffset k + i` equals the left-to-right Kronecker product of
all children's matrices with child `k`'s matrix replaced by its `i`-th
jacobian at that child's slice. -/
theorem kron_mat_jac_spec (gs : List KChild) (v : List ℝ) (hne : gs ≠ [])
    (hlen : v.length = totalInputs gs)
    (hcount : ∀ g ∈ gs, ∀ w : List ℝ, ((g.mat_jac w).2).length = g.num_inputs) :
    mat_jac gs v
        = some ((kronAll ((sliceDimMatJacs gs v).map dmFst)).2,
            kronJacsFrom [] (sliceDimMatJacs gs v)) ∧
      (kronJacsFrom [] (sliceDimMatJacs gs v)).length = totalInputs gs ∧
      ∀ (k : ℕ) (hk : k < gs.length) (i : ℕ),
        i < (gs.get ⟨k, hk⟩).num_inputs →
        (kronJacsFrom [] (sliceDimMatJacs gs v)).getD (inputOffset gs k + i) 0
          = (kronAll ((((sliceDimMatJacs gs v).map dmFst).take k)
              ++ ((gs.get ⟨k, hk⟩).dim,
                  ((gs.get ⟨k, hk⟩).mat_jac (sliceAt gs v k hk)).2.getD i 0)
                :: (((sliceDimMatJacs gs v).map dmFst).drop (k + 1)))).2 := by
  refine ⟨kron_mat_jac_eq gs v hne hlen, ?_, ?_⟩
  · rw [kronJacsFrom_length, sliceDimMatJacs_sum gs hcount v]
  · intro k hk i hi
    have hkJ : k < (sliceDimMatJacs gs v).length := by
      rw [sliceDimMatJacs_length]; exact hk
    have hget := sliceDimMatJacs_get gs v k hk
    have hiJ : i < ((sliceDimMatJacs gs v).get ⟨k, hkJ⟩).2.2.length := by
      rw [hget, hcount _ (List.get_mem gs k hk) _]
      exact hi
    have := kronJacsFrom_getD (sliceDimMatJacs gs v) [] k hkJ i hiJ
    rw [sliceDimMatJacs_take_sum gs hcount v k] at this
    rw [this, hget, List.nil_append]

/-- Witness for C3 at a concrete two-child `KroneckerGate` with one
parameter in the second child. -/
theorem kron_mat_jac_spec_witness :
    (([onesChild, onesJacChild] : List KChild) ≠ [] ∧
        ([0] : List ℝ).length = totalInputs [onesChild, onesJacChild] ∧
        (∀ g ∈ ([onesChild, onesJacChild] : List KChild), ∀ w : List ℝ,
          ((g.mat_jac w).2).length = g.num_inputs)) ∧
      (mat_jac [onesChild, onesJacChild] ([0] : List ℝ)
          = some ((kronAll
                ((sliceDimMatJacs [onesChild, onesJacChild] [0]).map dmFst)).2,
              kronJacsFrom [] (sliceDimMatJacs [onesChild, onesJacChild] [0])) ∧
        (kronJacsFrom [] (sliceDimMatJacs [onesChild, onesJacChild] [0])).length
          = totalInputs [onesChild, onesJacChild] ∧
        ∀ (k : ℕ) (hk : k < ([onesChild, onesJacChild] : List KChild).length)
            (i : ℕ),
          i < (([onesChild, onesJacChild] : List KChild).get ⟨k, hk⟩).num_inputs →
          (kronJacsFrom []
              (sliceDimMatJacs [onesChild, onesJacChild] [0])).getD
              (inputOffset [onesChild, onesJacChild] k + i) 0
            = (kronAll
                ((((sliceDimMatJacs [onesChild, onesJacChild] [0]).map
                      dmFst).take k)
                  ++ ((([onesChild, onesJacChild] : List KChild).get
                          ⟨k, hk⟩).dim,
                      ((([onesChild, onesJacChild] : List KChild).get
                          ⟨k, hk⟩).mat_jac
                          (sliceAt [onesChild, onesJacChild] [0] k hk)).2.getD
                        i 0)
                    :: (((sliceDimMatJacs [onesChild, onesJacChild]
                          [0]).map dmFst).drop (k + 1)))).2) := by
  have hne : ([onesChild, onesJacChild] : List KChild) ≠ [] := by simp
  have hlen : ([0] : List ℝ).length = totalInputs [onesChild, onesJacChild] := by
    simp [totalInputs, onesChild, onesJacChild]
  have hcount : ∀ g ∈ ([onesChild, onesJacChild] : List KChild), ∀ w : List ℝ,
      ((g.mat_jac w).2).length = g.num_inputs := by
    intro g hg w
    simp only [List.mem_cons, List.not_mem_nil, or_false] at hg
    rcases hg with rfl | rfl <;> rfl
  exact ⟨⟨hne, hlen, hcount⟩,
    kron_mat_jac_spec [onesChild, onesJacChild] [0] hne hlen hcount⟩

end KroneckerGate

/-! ## Canonical identity: `__repr__`, `__eq__`, `__hash__` (C5, C10)

`Gate.__eq__` compares `repr` strings and `Gate.__hash__` is
`int(md5(repr(self).encode()).hexdigest(), 16)`.  Seven subclasses
(`U3Gate`, `U2Gate`, `U1Gate`, `CNOTGate`, `CZGate`, `ISwapGate`,
`XXGate`) override `__eq__` with `type(self) == type(other)` without
defining `__hash__`; by the Python data model this sets their `__hash__`
to `None`, so `hash()` on them raises `TypeError`.  `UGate.__repr__`
reads the unbound global name `U` (`NameError`) and `CUGate.__repr__`
reads the missing attribute `self.name` (`AttributeError`), so `repr`,
`==` and `hash` raise for those two classes. -/

namespace MD5

/-- The 64 per-round constants `floor(2^32 * abs(sin(i + 1)))` of md5. -/
def K : List ℕ :=
  [0xd76aa478, 0xe8c7b756, 0x242070db, 0xc1bdceee,
   0xf57c0faf, 0x4787c62a, 0xa8304613, 0xfd469501,
   0x698098d8, 0x8b44f7af, 0xffff5bb1, 0x895cd7be,
   0x6b901122, 0xfd987193, 0xa679438e, 0x49b40821,
   0xf61e2562, 0xc040b340, 0x265e5a51, 0xe9b6c7aa,
   0xd62f105d, 0x02441453, 0xd8a1e681, 0xe7d3fbc8,
   0x21e1cde6, 0xc33707d6, 0xf4d50d87, 0x455a14ed,
   0xa9e3e905, 0xfcefa3f8, 0x676f02d9, 0x8d2a4c8a,
   0xfffa3942, 0x8771f681, 0x6d9d6122, 0xfde5380c,
   0xa4beea44, 0x4bdecfa9, 0xf6bb4b60, 0xbebfbc70,
   0x289b7ec6, 0xeaa127fa, 0xd4ef3085, 0x04881d05,
   0xd9d4d039, 0xe6db99e5, 0x1fa27cf8, 0xc4ac5665,
   0xf4292244, 0x432aff97, 0xab9423a7, 0xfc93a039,
   0x655b59c3, 0x8f0ccc92, 0xffeff47d, 0x85845dd1,
   0x6fa87e4f, 0xfe2ce6e0, 0xa3014314, 0x4e0811a1,
   0xf7537e82, 0xbd3af235, 0x2ad7d2bb, 0xeb86d391]

/-- The per-round left-rotation amounts of md5. -/
def S : List ℕ :=
  [7, 12, 17, 22, 7, 12, 17, 22, 7, 12, 17, 22, 7, 12, 17, 22,
   5, 9, 14, 20, 5, 9, 14, 20, 5, 9, 14, 20, 5, 9, 14, 20,
   4, 11, 16, 23, 4, 11, 16, 23, 4, 11, 16, 23, 4, 11, 16, 23,
   6, 10, 15, 21, 6, 10, 15, 21, 6, 10, 15, 21, 6, 10, 15, 21]

/-- Mask for 32-bit words. -/
def mask : ℕ := 0xffffffff

/-- Left rotation of a 32-bit word. -/
def rotl (x m : ℕ) : ℕ := ((x <<< m) ||| (x >>> (32 - m))) &&& mask

/-- md5 padding: a `0x80` byte, zero bytes up to 56 mod 64, then the bit
length as a 64-bit little-endian number. -/
def pad (msg : List ℕ) : List ℕ :=
  msg ++ [0x80]
    ++ List.replicate ((120 - ((msg.length + 1) % 64)) % 64) 0
    ++ ((List.range 8).map fun i => ((8 * msg.length) >>> (8 * i)) &&& 0xff)

/-- Parse a 64-byte block into 16 little-endian 32-bit words. -/
def toWords (block : List ℕ) : List ℕ :=
  (List.range 16).map fun j =>
    block.getD (4 * j) 0 + block.getD (4 * j + 1) 0 * 0x100
      + block.getD (4 * j + 2) 0 * 0x10000 + block.getD (4 * j + 3) 0 * 0x1000000

/-- One md5 round. -/
def step (M : List ℕ) (st : ℕ × ℕ × ℕ × ℕ) (i : ℕ) : ℕ × ℕ × ℕ × ℕ :=
  let A := st.1
  let B := st.2.1
  let C := st.2.2.1
  let D := st.2.2.2
  let F :=
    if i < 16 then (B &&& C) ||| ((B ^^^ mask) &&& D)
    else if i < 32 then (D &&& B) ||| ((D ^^^ mask) &&& C)
    else if i < 48 then B ^^^ C ^^^ D
    else C ^^^ (B ||| (D ^^^ mask))
  let g :=
    if i < 16 then i
    else if i < 32 then (5 * i + 1) % 16
    else if i < 48 then (3 * i + 5) % 16
    else (7 * i) % 16
  let F2 := (F + A + K.getD i 0 + M.getD g 0) &&& mask
  (D, (B + rotl F2 (S.getD i 0)) &&& mask, B, C)

/-- Process one 64-byte block. -/
def processBlock (st : ℕ × ℕ × ℕ × ℕ) (block : List ℕ) : ℕ × ℕ × ℕ × ℕ :=
  let r := (List.range 64).foldl (step (toWords block)) st
  ((st.1 + r.1) &&& mask, (st.2.1 + r.2.1) &&& mask,
    (st.2.2.1 + r.2.2.1) &&& mask, (st.2.2.2 + r.2.2.2) &&& mask)

/-- The four bytes of a 32-bit word, little-endian. -/
def leBytes (x : ℕ) : List ℕ :=
  [x &&& 0xff, (x >>> 8) &&& 0xff, (x >>> 16) &&& 0xff, (x >>> 24) &&& 0xff]

/-- The 16 digest bytes of md5 over a byte string. -/
def md5bytes (msg : List ℕ) : List ℕ :=
  let padded := pad msg
  let st := (List.range (padded.length / 64)).foldl
    (fun st k => processBlock st ((padded.drop (64 * k)).take 64))
    (0x67452301, 0xefcdab89, 0x98badcfe, 0x10325476)
  leBytes st.1 ++ leBytes st.2.1 ++ leBytes st.2.2.1 ++ leBytes st.2.2.2

/-- `int(md5(s.encode()).hexdigest(), 16)`: the digest bytes read as a
big-endian number (all repr strings here are ASCII). -/
def md5int (s : String) : ℕ :=
  (md5bytes (s.data.map Char.toNat)).foldl (fun acc b => acc * 0x100 + b) 0

set_option maxRecDepth 100000 in
/-- Validation of the md5 embedding against the standard test vector
`md5("") = d41d8cd98f00b204e9800998ecf8427e`. -/
theorem md5int_empty_vector :
    md5int "" = 0xd41d8cd98f00b204e9800998ecf8427e := by decide

set_option maxRecDepth 100000 in
/-- Validation of the md5 embedding on a repr string actually hashed by
the code: `int(md5("CPIPhaseGate()".encode()).hexdigest(), 16)`. -/
theorem md5int_cpiPhase_vector :
    md5int "CPIPhaseGate()" = 0x40d67cbb49c968795597835da7cc8239 := by decide

end MD5

/-- The object state of a gate, as far as `__repr__` / `__eq__` /
`__hash__` are concerned: its class and the constructor arguments that
`__repr__` prints.  `CPIPhaseGate` carries the five phases drawn by
`np.random.random()` in its constructor (they do not appear in its repr).
`UGate` and `CUGate` carry no fields here because their `__repr__` raises
before reading any field (unbound global `U`, missing `self.name`). -/
inductive GateR : Type where
  | identity (qudits d : ℕ)
  | x
  | y
  | z
  | zxzxz
  | xzxz
  | u3
  | u2
  | u1
  | singleQutrit
  | csum
  | cpi
  | cpiPhase (phases : Fin 5 → ℝ)
  | cnot
  | cz
  | iswap
  | xx
  | nonadjacentCNOT (qudits control target : ℤ)
  | uGate
  | upgradedConstant (subgate : GateR) (df : ℕ)
  | cuGate
  | cnotRoot
  | kronecker (subgates : List GateR)
  | product (subgates : List GateR)

namespace GateR

mutual

/-- `repr(gate)`, with exceptions as `Except`: each branch is the
corresponding `__repr__` of `gates.py`.  `KroneckerGate` formats
`repr(self._subgates)[1:-1]` where `_subgates` is a tuple (a singleton
keeps its trailing comma); `ProductGate` formats its list the same way
without the tuple quirk. -/
def pyRepr : GateR → Except String String
  | .identity q d =>
      if q = 1 ∧ d = 2 then .ok "IdentityGate()"
      else .ok ("IdentityGate(qudits=" ++ toString q ++ ", d=" ++ toString d ++ ")")
  | .x => .ok "XGate()"
  | .y => .ok "YGate()"
  | .z => .ok "ZGate()"
  | .zxzxz => .ok "ZXZXZGate()"
  | .xzxz => .ok "XZXZGate()"
  | .u3 => .ok "U3Gate()"
  | .u2 => .ok "U2Gate()"
  | .u1 => .ok "U1Gate()"
  | .singleQutrit => .ok "SingleQutritGate()"
  | .csum => .ok "CSUMGate()"
  | .cpi => .ok "CPIGate()"
  | .cpiPhase _ => .ok "CPIPhaseGate()"
  | .cnot => .ok "CNOTGate()"
  | .cz => .ok "CZGate()"
  | .iswap => .ok "ISwapGate()"
  | .xx => .ok "XXGate()"
  | .nonadjacentCNOT q c t =>
      .ok ("NonadjacentCNOTGate(" ++ toString q ++ ", " ++ toString c ++ ", "
        ++ toString t ++ ")")
  | .uGate => .error "NameError"
  | .upgradedConstant sub df =>
      match pyRepr sub with
      | .error e => .error e
      | .ok r => .ok ("UpgradedConstantGate(" ++ r ++ ", df=" ++ toString df ++ ")")
  | .cuGate => .error "AttributeError"
  | .cnotRoot => .ok "CNOTRootGate()"
  | .kronecker subs =>
      match tupleInner subs with
      | .error e => .error e
      | .ok r => .ok ("KroneckerGate(" ++ r ++ ")")
  | .product subs =>
      match joinInner subs with
      | .error e => .error e
      | .ok r => .ok ("ProductGate(" ++ r ++ ")")

/-- `repr(tuple)[1:-1]`: Python prints a one-element tuple with a
trailing comma. -/
def tupleInner : List GateR → Except String String
  | [] => .ok ""
  | [g] =>
      match pyRepr g with
      | .error e => .error e
      | .ok r => .ok (r ++ ",")
  | g :: rest =>
      match pyRepr g with
      | .error e => .error e
      | .ok r =>
          match joinInner rest with
          | .error e => .error e
          | .ok rs => .ok (r ++ ", " ++ rs)

/-- `repr(list)[1:-1]`: the element reprs joined by a comma and space. -/
def joinInner : List GateR → Except String String
  | [] => .ok ""
  | [g] => pyRepr g
  | g :: rest =>
      match pyRepr g with
      | .error e => .error e
      | .ok r =>
          match joinInner rest with
          | .error e => .error e
          | .ok rs => .ok (r ++ ", " ++ rs)

end

/-- A number identifying the Python class of the object
(`type(self) == type(other)` is tag equality). -/
def classTag : GateR → ℕ
  | .identity _ _ => 0
  | .x => 1
  | .y => 2
  | .z => 3
  | .zxzxz => 4
  | .xzxz => 5
  | .u3 => 6
  | .u2 => 7
  | .u1 => 8
  | .singleQutrit => 9
  | .csum => 10
  | .cpi => 11
  | .cpiPhase _ => 12
  | .cnot => 13
  | .cz => 14
  | .iswap => 15
  | .xx => 16
  | .nonadjacentCNOT _ _ _ => 17
  | .uGate => 18
  | .upgradedConstant _ _ => 19
  | .cuGate => 20
  | .cnotRoot => 21
  | .kronecker _ => 22
  | .product _ => 23

/-- The classes that override `__eq__` with `type(self) == type(other)`
(and thereby lose `__hash__`). -/
def overridesEq : GateR → Bool
  | .u3 => true
  | .u2 => true
  | .u1 => true
  | .cnot => true
  | .cz => true
  | .iswap => true
  | .xx => true
  | _ => false

/-- Python `a == b`: the overriding classes compare types; everything
else runs `Gate.__eq__`, i.e. `repr(self) == repr(other)` (propagating
any exception raised by `repr`). -/
def pyEq (a b : GateR) : Except String Bool :=
  if overridesEq a then .ok (classTag a == classTag b)
  else
    match pyRepr a with
    | .error e => .error e
    | .ok ra =>
        match pyRepr b with
        | .error e => .error e
        | .ok rb => .ok (ra == rb)

/-- Python `hash(a)`: classes that override `__eq__` without `__hash__`
have `__hash__ = None` and raise `TypeError`; the rest run
`Gate.__hash__`, i.e. `int(md5(repr(self).encode()).hexdigest(), 16)`. -/
def pyHash (g : GateR) : Except String ℕ :=
  if overridesEq g then .error "TypeError"
  else
    match pyRepr g with
    | .error e => .error e
    | .ok r => .ok (MD5.md5int r)

end GateR

/-! ## `CPIPhaseGate` (C10) -/

namespace CPIPhaseGate

/-- The row list of the base `_cpi` array of `CPIPhaseGate.__init__`. -/
def cpiRows : List (List ℂ) :=
  [[1, 0, 0, 0, 0, 0, 0, 0, 0],
   [0, 1, 0, 0, 0, 0, 0, 0, 0],
   [0, 0, 1, 0, 0, 0, 0, 0, 0],
   [0, 0, 0, 0, -1, 0, 0, 0, 0],
   [0, 0, 0, 1, 0, 0, 0, 0, 0],
   [0, 0, 0, 0, 0, 1, 0, 0, 0],
   [0, 0, 0, 0, 0, 0, 1, 0, 0],
   [0, 0, 0, 0, 0, 0, 0, 1, 0],
   [0, 0, 0, 0, 0, 0, 0, 0, 1]]

/-- The base `_cpi` array as a 9×9 matrix. -/
def baseCpi : Matrix (Fin 9) (Fin 9) ℂ :=
  Matrix.of fun i j => (cpiRows.getD i.val []).getD j.val 0

/-- The random diagonal `diag([1]*4 + [exp(2j*random()*pi); 5 times])`,
as a function of the five drawn phases `r` (each in `[0, 1)` at run
time; nothing below depends on the range). -/
def dvec (r : Fin 5 → ℝ) (j : Fin 9) : ℂ :=
  if _h : j.val < 4 then 1
  else Complex.exp (2 * Complex.I * Complex.ofReal (r ⟨j.val - 4, by
    have := j.isLt; omega⟩) * Complex.ofReal Real.pi)

/-- The stored `self._cpi = np.matmul(base, diag_mod)` of an instance
constructed with draws `r`. -/
def storedCpi (r : Fin 5 → ℝ) : Matrix (Fin 9) (Fin 9) ℂ :=
  baseCpi * Matrix.diagonal (dvec r)

/-- `CPIPhaseGate.matrix(v)` returns the stored array whatever `v` is. -/
def matrixFn (r : Fin 5 → ℝ) (_v : List ℝ) : Matrix (Fin 9) (Fin 9) ℂ :=
  storedCpi r

end CPIPhaseGate

/-! ## Claim theorems C5 and C10 -/

/-- C5: the claim says every pair of gates compares by repr equality and
every gate hashes to the md5 digest of its repr.  That is the base-class
behaviour (shown here for `XGate`), but `U3Gate` — like `U2Gate`,
`U1Gate`, `CNOTGate`, `CZGate`, `ISwapGate` and `XXGate` — overrides
`__eq__` without defining `__hash__`, so Python sets its `__hash__` to
`None` and `hash(U3Gate())` raises `TypeError` even though its repr is
perfectly defined; the md5-of-repr contract is broken for those seven
classes (and `repr`/`==`/`hash` raise outright for `UGate`/`CUGate`). -/
theorem u3_unhashable :
    GateR.pyHash GateR.x = .ok (MD5.md5int "XGate()") ∧
      GateR.pyRepr GateR.u3 = .ok "U3Gate()" ∧
      GateR.pyHash GateR.u3 = .error "TypeError" ∧
      GateR.pyHash GateR.cnot = .error "TypeError" ∧
      GateR.pyEq GateR.u3 GateR.u3 = .ok true ∧
      GateR.pyRepr GateR.uGate = .error "NameError" :=
  ⟨rfl, rfl, rfl, rfl, rfl, rfl⟩

/-- C10: two independently constructed `CPIPhaseGate` instances (i.e. any
two draws of the five random phases) have the same repr
`"CPIPhaseGate()"`, compare equal under `__eq__` and hash identically,
yet their stored matrices generally differ — exhibited at draws all-0 and
all-1/2 — while for a fixed instance `matrix(v)` returns the same stored
matrix on every call. -/
theorem cpiPhase_nondeterministic_construction :
    (∀ r₁ r₂ : Fin 5 → ℝ,
        GateR.pyRepr (GateR.cpiPhase r₁) = .ok "CPIPhaseGate()" ∧
        GateR.pyEq (GateR.cpiPhase r₁) (GateR.cpiPhase r₂) = .ok true ∧
        GateR.pyHash (GateR.cpiPhase r₁) = GateR.pyHash (GateR.cpiPhase r₂)) ∧
      (∃ r₁ r₂ : Fin 5 → ℝ,
        CPIPhaseGate.matrixFn r₁ [] ≠ CPIPhaseGate.matrixFn r₂ []) ∧
      (∀ (r : Fin 5 → ℝ) (v w : List ℝ),
        CPIPhaseGate.matrixFn r v = CPIPhaseGate.matrixFn r w) := by
  refine ⟨fun r₁ r₂ => ⟨rfl, rfl, rfl⟩, ?_, fun r v w => rfl⟩
  refine ⟨fun _ => 0, fun _ => 1 / 2, fun hcontra => ?_⟩
  have h34 : CPIPhaseGate.matrixFn (fun _ => 0) [] 3 4
      = CPIPhaseGate.matrixFn (fun _ => (1 : ℝ) / 2) [] 3 4 := by
    rw [hcontra]
  have hb : CPIPhaseGate.baseCpi 3 4 = -1 := rfl
  have hd1 : CPIPhaseGate.dvec (fun _ => 0) 4 = 1 := by
    simp [CPIPhaseGate.dvec]
  have hd2 : CPIPhaseGate.dvec (fun _ => (1 : ℝ) / 2) 4 = -1 := by
    rw [CPIPhaseGate.dvec]
    rw [dif_neg (by decide)]
    rw [show (2 * Complex.I * Complex.ofReal ((fun _ => (1 : ℝ) / 2)
          (⟨(4 : Fin 9).val - 4, by decide⟩ : Fin 5))
          * Complex.ofReal Real.pi)
        = Complex.ofReal Real.pi * Complex.I by push_cast; ring]
    exact Complex.exp_pi_mul_I
  rw [CPIPhaseGate.matrixFn, CPIPhaseGate.matrixFn, CPIPhaseGate.storedCpi,
    CPIPhaseGate.storedCpi, Matrix.mul_diagonal, Matrix.mul_diagonal,
    hb, hd1, hd2] at h34
  norm_num at h34

end QSearch
